import Mathlib

/-!
Verification of the dreadnom document transformation engine.

This file is a shallow embedding of the engine found in the repository's
`src/parse.rs` and `src/lib.rs` (the crate contains two near-duplicate
copies of the segmenter and the transformer; both are embedded here).
Text is modelled as `List Char`; regular-expression behaviour of the
`regex` and `logos` crates is translated into explicit scanning
functions, with comments justifying each translation.  Machine strings
are UTF-8; we model the character classes `\s`, `\d`, `\w` over their
ASCII meaning, which covers every character the engine itself inserts
and every input exercised by the repository's tests.
-/

abbrev Chars := List Char

/-- Characters of a string literal. -/
def lc (s : String) : Chars := s.data

/-- ASCII whitespace, modelling the regex character class `\s`. -/
def isWsCh (c : Char) : Bool :=
  c = ' ' || c = '\t' || c = '\n' || c = '\x0b' || c = '\x0c' || c = '\r'

/-- Word characters, modelling the regex character class `\w` (ASCII part). -/
def isWordCh (c : Char) : Bool := c.isAlphanum || c = '_'

/-- Drop trailing whitespace (the effect of a trailing `\s*` after a
greedy capture, or of Rust's `str::trim_end`). -/
def trimRight (s : Chars) : Chars := (s.reverse.dropWhile isWsCh).reverse

/-- Rust's `str::trim`: drop leading and trailing whitespace. -/
def trimBoth (s : Chars) : Chars := trimRight (s.dropWhile isWsCh)

/-- The three token kinds of the `logos` lexer `LineKind` in
`src/parse.rs` (an identical enum lives in `src/lib.rs`). -/
inductive LineKind
  | ListItem
  | Header
  | Vanilla
  deriving DecidableEq

/-- The error conditions of the engine (in the source these are
`anyhow` errors produced by `bail!`; we name them after the spec's
error kinds). -/
inductive ParseErr
  | NotAHeader
  | NoLicenseLine
  | MustStartWithNewline
  | EmptyListRun
  | NotAListItem
  deriving DecidableEq

/-- Does the line (the text after the leading newline of a token) match
the `Header` pattern `#+ [^\n]*`, i.e. one or more `#` followed by a
space?  The `#+` is greedy; backtracking to a shorter run of `#` cannot
help because the next character would again be `#`, not a space, so the
pattern matches exactly when the maximal `#` run is followed by `' '`. -/
def isHeaderLine (line : Chars) : Bool :=
  let hs := line.takeWhile (fun c => c = '#')
  !hs.isEmpty && ((line.drop hs.length).head? = some ' ')

/-- Does the line match the `ListItem` pattern `\d+\.[^\n]*`, i.e. one
or more digits followed by a dot?  As for headers, greedy `\d+` with
backtracking matches exactly when the maximal digit run is followed by
`'.'`. -/
def isListItemLine (line : Chars) : Bool :=
  let ds := line.takeWhile Char.isDigit
  !ds.isEmpty && ((line.drop ds.length).head? = some '.')

/-- Line classification of the `logos` lexer.  All three patterns
consume a whole `\n`-led line, so every token candidate has the same
length and `logos` picks by pattern priority: the more specific
`Header` and `ListItem` patterns (which are mutually exclusive — a line
cannot start with both `#` and a digit) beat the catch-all `Vanilla`,
as the repository's tests demonstrate. -/
def classify (line : Chars) : LineKind :=
  if isHeaderLine line then .Header
  else if isListItemLine line then .ListItem
  else .Vanilla

/-- Split a character list at newlines.  For a transformer input
`'\n' :: rest`, the lexer's tokens are exactly
`(splitNL rest).map (fun l => '\n' :: l)`: every token of the `logos`
lexer starts at a `'\n'` and extends to just before the next `'\n'`
(all three patterns are `\n[^\n]*`-shaped), so lexing never fails and
partitions the input at its newlines. -/
def splitNL : Chars → List Chars
  | [] => [[]]
  | c :: cs =>
    if c = '\n' then [] :: splitNL cs
    else
      match splitNL cs with
      | [] => [[c]]
      | l :: ls => (c :: l) :: ls

/-- Maximal runs of word / non-word characters, modelling the `logos`
lexer `LinkToken` with patterns `[\w]+` and `[^\w]+` (each run is the
maximal same-class stretch, by longest-match lexing). -/
def linkRuns : Chars → List Chars
  | [] => []
  | c :: cs =>
    match linkRuns cs with
    | [] => [[c]]
    | [] :: ls => [c] :: [] :: ls
    | (d :: l) :: ls =>
      if isWordCh c = isWordCh d then (c :: d :: l) :: ls
      else [c] :: (d :: l) :: ls

/-- `make_link` from `src/parse.rs` (identical in `src/lib.rs`): the
anchor-slug generator.  Word runs pass through, non-word runs become a
single `-`; a lone `-` right after the `^` is blanked, a trailing lone
`-` is dropped; the result is lower-cased.  (The runs produced by
`linkRuns` are never empty, so the `headD` default is never consulted.) -/
def make_link (header : Chars) : Chars :=
  let toks := (linkRuns header).map (fun r => if isWordCh (r.headD ' ') then r else lc "-")
  let parts := lc "^" :: toks
  let parts :=
    match parts with
    | p :: q :: rest => if q = lc "-" then p :: ([] : Chars) :: rest else p :: q :: rest
    | other => other
  let parts := if parts.getLast? = some (lc "-") then parts.dropLast else parts
  parts.flatten.map Char.toLower

/-- `dice_code` from `src/parse.rs` (identical in `src/lib.rs`). -/
def dice_code (name link : Chars) : Chars :=
  lc "\n`dice: [[" ++ name ++ lc "#" ++ link ++ lc "]]`\n"

/-- The capture of the regex `LIST_ITEM = \n\d+\.\s*(.*)` applied to a
lexer token, composed with the `.trim()` applied at the use site in
`list_to_table`: the token must be `'\n'`, digits, `'.'`; the greedy
`\s*` plus trailing `.trim()` together trim the remainder of the line
on both sides.  (The regex search can only match at a `'\n'`, and a
lexer token contains exactly one, at its head.) -/
def itemCapture : Chars → Option Chars
  | '\n' :: line =>
    let ds := line.takeWhile Char.isDigit
    if ds.isEmpty then none
    else
      match line.drop ds.length with
      | '.' :: rest => some (trimBoth rest)
      | _ => none
  | _ => none

/-- Total version of `itemCapture` for tokens known to be list items. -/
def itemText (t : Chars) : Chars := (itemCapture t).getD []

/-- The table's first fragment: header row and alignment row,
`format!("\n| d{n} | Item |\n| --:| -- |")`. -/
def headerRow (n : Nat) : Chars :=
  lc "\n| d" ++ lc (Nat.repr n) ++ lc " | Item |\n| --:| -- |"

/-- The data-row loop of `list_to_table`: `rows.len()` at each push is
the running 1-based row number, so we thread the next row number `i`. -/
def tableRowsAux : Nat → List Chars → Except ParseErr (List Chars)
  | _, [] => .ok []
  | i, t :: rest =>
    match itemCapture t with
    | none => .error .NotAListItem
    | some cap =>
      match tableRowsAux (i + 1) rest with
      | .error e => .error e
      | .ok rows => .ok ((lc "\n| " ++ lc (Nat.repr i) ++ lc " | " ++ cap ++ lc " |") :: rows)

/-- `list_to_table` from `src/parse.rs`. -/
def list_to_table (items : List Chars) : Except ParseErr Chars :=
  if items.length = 0 then .error .EmptyListRun
  else
    match tableRowsAux 1 items with
    | .error e => .error e
    | .ok rows => .ok ((headerRow items.length :: rows).flatten)

/-- Total data-row rendering, used to state what `list_to_table`
produces on well-formed runs: row `i` carries `itemText` of the
corresponding token. -/
def dataRowsF : Nat → List Chars → List Chars
  | _, [] => []
  | i, t :: rest =>
    (lc "\n| " ++ lc (Nat.repr i) ++ lc " | " ++ itemText t ++ lc " |") :: dataRowsF (i + 1) rest

/-- Total table rendering for well-formed runs. -/
def tableF (items : List Chars) : Chars :=
  (headerRow items.length :: dataRowsF 1 items).flatten

/-- The transformer state `ParsedChapter` from `src/parse.rs`. -/
structure ParsedChapter where
  name : Chars
  parsed : List Chars
  list : List Chars
  link : Chars

/-- `ParsedChapter::new`. -/
def ParsedChapter.new (name link : Chars) : ParsedChapter :=
  { name := name, parsed := [], list := [], link := link }

/-- `ParsedChapter::push_as_paragraph`: the fragment wrapped in `\n\n`
paragraph separators. -/
def push_as_paragraph (ch : ParsedChapter) (line : Chars) : ParsedChapter :=
  { ch with parsed := ch.parsed ++ [lc "\n\n", line, lc "\n\n"] }

/-- `ParsedChapter::push_line`; the token passed in Rust is the full
span including its leading newline. -/
def push_line (ch : ParsedChapter) (kind : LineKind) (token : Chars) : ParsedChapter :=
  match kind with
  | .ListItem => { ch with list := ch.list ++ [token] }
  | .Header => { ch with link := make_link token, parsed := ch.parsed ++ [token] }
  | .Vanilla => { ch with parsed := ch.parsed ++ [token] }

/-- `ParsedChapter::change_kind`. -/
def change_kind (ch : ParsedChapter) (f t : LineKind) : Except ParseErr ParsedChapter :=
  if t = .ListItem then .ok (push_as_paragraph ch (dice_code ch.name ch.link))
  else if f = .ListItem then
    match list_to_table ch.list with
    | .error e => .error e
    | .ok table =>
      .ok (push_as_paragraph { ch with parsed := ch.parsed ++ [table], list := [] } ch.link)
  else .ok ch

/-- The scanning loop of `parse` in `src/parse.rs`, over the token
lines (each line here is without its leading newline; `push_line`
re-attaches it as in the source's `&contents[span]`).  The `[]` case is
the loop epilogue `chapter.change_kind(old_kind, Vanilla)`. -/
def parseLines : ParsedChapter → LineKind → List Chars → Except ParseErr ParsedChapter
  | ch, old, [] => change_kind ch old .Vanilla
  | ch, old, l :: ls =>
    if old = classify l then
      parseLines (push_line ch (classify l) ('\n' :: l)) (classify l) ls
    else
      match change_kind ch old (classify l) with
      | .error e => .error e
      | .ok ch2 => parseLines (push_line ch2 (classify l) ('\n' :: l)) (classify l) ls

/-- One pass of the `EXTRA_NEWLINES` normalization
(`\n\n\n+` replaced by `\n\n` everywhere): keep at most two consecutive
newlines.  The regex's greedy pattern matches each maximal run of three
or more newlines and replaces it by two, which is exactly what this
counter-based scan produces. -/
def collapseGo : Nat → Chars → Chars
  | _, [] => []
  | seen, c :: cs =>
    if c = '\n' then
      if seen ≥ 2 then collapseGo seen cs
      else '\n' :: collapseGo (seen + 1) cs
    else c :: collapseGo 0 cs

/-- The `Display` normalization of `ParsedChapter` (and the final
`EXTRA_NEWLINES` pass of `parse` in `src/lib.rs`). -/
def collapseNL (s : Chars) : Chars := collapseGo 0 s

/-- The initial anchor sentinel. -/
def startLink : Chars := lc "^START"

/-- `parse` from `src/parse.rs` (the Transformer).  The `logos` lexer
cannot fail once the input starts with a newline (every position then
begins a `\n[^\n]*` token), so the `with_context` error path is
unreachable and the lexer is modelled by `splitNL`/`classify`. -/
def parse (name contents : Chars) : Except ParseErr Chars :=
  match contents with
  | [] => .ok []
  | c :: rest =>
    if c = '\n' then
      match parseLines (ParsedChapter.new name startLink) .Vanilla (splitNL rest) with
      | .error e => .error e
      | .ok ch => .ok (collapseNL ch.parsed.flatten)
    else .error .MustStartWithNewline

/-- Group consecutive lines of equal `classify` kind into maximal runs
(the "Run" of the spec's data model). -/
def runsOf : List Chars → List (LineKind × List Chars)
  | [] => []
  | l :: ls =>
    match runsOf ls with
    | [] => [(classify l, [l])]
    | (k, r) :: rest =>
      if classify l = k then (k, l :: r) :: rest
      else (classify l, [l]) :: (k, r) :: rest

/-- The per-line anchor update: `push_line` sets the link on every
`Header` line and leaves it alone otherwise. -/
def stepLink (link : Chars) (line : Chars) : Chars :=
  if classify line = .Header then make_link ('\n' :: line) else link

/-- The anchor after scanning a sequence of lines, starting from
`link`. -/
def linkAfterLines (link : Chars) (ls : List Chars) : Chars := ls.foldl stepLink link

/-- The fragments the scan appends per run: `Header` and `Vanilla`
lines verbatim (with their leading newline), and for each `ListItem`
run a paragraph-wrapped roll trigger, exactly one table, and exactly
one paragraph-wrapped anchor label, in that order. -/
def renderRuns (name link : Chars) : List (LineKind × List Chars) → List Chars
  | [] => []
  | (.ListItem, r) :: rest =>
    [lc "\n\n", dice_code name link, lc "\n\n",
     tableF (r.map (fun l => '\n' :: l)), lc "\n\n", link, lc "\n\n"]
      ++ renderRuns name link rest
  | (.Header, r) :: rest =>
    r.map (fun l => '\n' :: l) ++ renderRuns name (linkAfterLines link r) rest
  | (.Vanilla, r) :: rest =>
    r.map (fun l => '\n' :: l) ++ renderRuns name link rest

/-- The fragments that close a pending list run (emitted by
`change_kind` when leaving a `ListItem` run, or by the loop
epilogue). -/
def closeFrags (ch : ParsedChapter) (old : LineKind) : List Chars :=
  if old = .ListItem then [tableF ch.list, lc "\n\n", ch.link, lc "\n\n"] else []

/-- The anchor in force after the given prefix of lines: the slug of
the most recent `Header` line, or the `^START` sentinel if no header
occurred. -/
def anchorBefore (ls : List Chars) : Chars := linkAfterLines startLink ls

/-- Rendering in which every `ListItem` run's roll trigger and anchor
label are computed non-incrementally, from the lines preceding the
run. -/
def renderAt (name : Chars) : List Chars → List (LineKind × List Chars) → List Chars
  | _, [] => []
  | done, (.ListItem, r) :: rest =>
    [lc "\n\n", dice_code name (anchorBefore done), lc "\n\n",
     tableF (r.map (fun l => '\n' :: l)), lc "\n\n", anchorBefore done, lc "\n\n"]
      ++ renderAt name (done ++ r) rest
  | done, (_, r) :: rest =>
    r.map (fun l => '\n' :: l) ++ renderAt name (done ++ r) rest

/-- The capture of the regex `HEADER = ^#+\s+(.*\S)\s*` used by
`embedded_file_name` (identical in both source files).  Greedy `#+`
must be followed by at least one `\s`; greedy `\s+` then lands on the
first non-whitespace character (if the remainder is all whitespace no
shorter `\s+` can rescue the required `\S`, so the match fails); since
`.` does not cross newlines, the greedy `(.*\S)` then captures from
that character to the last non-whitespace character of that line. -/
def headerCapture (contents : Chars) : Option Chars :=
  let hs := contents.takeWhile (fun c => c = '#')
  if hs.isEmpty then none
  else
    let rest := contents.drop hs.length
    match rest.head? with
    | none => none
    | some c =>
      if isWsCh c then
        let after := rest.dropWhile isWsCh
        if after.isEmpty then none
        else some (trimRight (after.takeWhile (fun d => d ≠ '\n')))
      else none

/-- First position of a newline (Rust `contents.find('\n')`). -/
def firstNL : Chars → Option Nat
  | [] => none
  | c :: cs => if c = '\n' then some 0 else (firstNL cs).map (fun i => i + 1)

/-- Does the text start with a match of `SUBHEAD = \n#+\s`?  As with
`isHeaderLine`, the greedy `#+` makes this equivalent to: newline,
maximal non-empty `#` run, then a whitespace character. -/
def subheadAt : Chars → Bool
  | '\n' :: rest =>
    let hs := rest.takeWhile (fun c => c = '#')
    !hs.isEmpty &&
      (match rest.drop hs.length with
       | c :: _ => isWsCh c
       | [] => false)
  | _ => false

/-- Start position of the first `SUBHEAD` match (`SUBHEAD.find`). -/
def findSubhead : Chars → Option Nat
  | [] => none
  | c :: cs => if subheadAt (c :: cs) then some 0 else (findSubhead cs).map (fun i => i + 1)

/-- Rust's `str::lines`: split at newlines, dropping the empty piece
produced by a trailing newline.  (Line-final `\r` stripping is not
modelled; the corpus uses `\n` endings, spec section 6.) -/
def rustLines (s : Chars) : List Chars :=
  if s.isEmpty then []
  else
    let ls := splitNL s
    if ls.getLast? = some [] then ls.dropLast else ls

/-- Is the head character a word character (regex `\b` tests). -/
def headIsWord : Chars → Bool
  | [] => false
  | c :: _ => isWordCh c

/-- Does the text start with `OGL\b`: the three characters `OGL`
followed by a word boundary (end of text or a non-word character)? -/
def oglAfter (t : Chars) : Bool :=
  t.take 3 = lc "OGL" && !headIsWord (t.drop 3)

/-- Scan for `\bOGL\b` anywhere, tracking whether the previous
character was a word character (for the left boundary; at the start of
the text `\b` holds before a word character). -/
def hasWordOGLAux : Bool → Chars → Bool
  | _, [] => false
  | prevW, c :: cs => (!prevW && oglAfter (c :: cs)) || hasWordOGLAux (isWordCh c) cs

/-- `\bOGL\b` matches somewhere in the line. -/
def hasWordOGL (l : Chars) : Bool := hasWordOGLAux false l

/-- The per-line keep predicate of `name_copyright_body` in
`src/parse.rs`: `COPYRIGHT_OR_OGL = \bOGL\b|©` matches the line. -/
def keepNCB (l : Chars) : Bool := l.contains '©' || hasWordOGL l

/-- The `OGL = ^(?:Include )?OGL\b` test of `subdivide` in
`src/lib.rs`: either `OGL\b` at the line start, or `Include ` followed
by `OGL\b` (the optional group; `lc "Include "` has length 8). -/
def subOGL (l : Chars) : Bool :=
  ((lc "Include ").isPrefixOf l && oglAfter (l.drop 8)) || oglAfter l

/-- The per-line keep predicate of `subdivide` in `src/lib.rs`:
`line.contains(COPYRIGHT) || OGL.is_match(line)`. -/
def keepSub (l : Chars) : Bool := l.contains '©' || subOGL l

/-- Replace the first match of the regex `:` by nothing
(`Regex::replace` replaces only the leftmost match). -/
def removeFirstColon : Chars → Chars
  | [] => []
  | c :: cs => if c = ':' then cs else c :: removeFirstColon cs

/-- The `THINGS_20 = ^(?:20 Things #|Monstrous Lair #)(.*)` stripping
plus the `.trim()` applied to the winning capture (or to the whole
name when neither prefix matches; the prefixes have lengths 11 and
16). -/
def stripThings (s : Chars) : Chars :=
  if (lc "20 Things #").isPrefixOf s then trimBoth (s.drop 11)
  else if (lc "Monstrous Lair #").isPrefixOf s then trimBoth (s.drop 16)
  else trimBoth s

/-- The trailing `([^.]+)\.\s*©` of `FROM_COPYRIGHT_LINE` at a fixed
position: the greedy `[^.]+` must run to the first dot (a shorter
prefix would have to be followed immediately by `.`, impossible inside
a dot-free run), then whitespace is skipped and `©` must follow (a
shorter `\s*` would leave a whitespace character where `©` is
required). -/
def tryCapture (v : Chars) : Option Chars :=
  let cap := v.takeWhile (fun c => c ≠ '.')
  if cap.isEmpty then none
  else
    match v.drop cap.length with
    | '.' :: w =>
      match w.dropWhile isWsCh with
      | '©' :: _ => some cap
      | _ => none
    | _ => none

/-- Backtracking over the greedy `\s*` before the capture group of
`FROM_COPYRIGHT_LINE`: the engine first tries skipping all `j`
whitespace characters, then fewer. -/
def capLoop (u : Chars) : Nat → Option Chars
  | 0 => tryCapture u
  | j + 1 =>
    match tryCapture (u.drop (j + 1)) with
    | some c => some c
    | none => capLoop u j

/-- A match attempt of `FROM_COPYRIGHT_LINE = \n[^#]+#\d\d:\s*([^.]+)\.\s*©`
anchored at a newline: greedy `[^#]+` must run to the first `#` (it
cannot stop earlier, the next character would not be `#`), then two
digits and a colon, then the `\s*`-backtracking capture. -/
def fromCopyrightAt : Chars → Option Chars
  | '\n' :: t =>
    let a := t.takeWhile (fun c => c ≠ '#')
    if a.isEmpty then none
    else
      match t.drop a.length with
      | '#' :: d1 :: d2 :: ':' :: u =>
        if d1.isDigit && d2.isDigit then capLoop u (u.takeWhile isWsCh).length
        else none
      | _ => none
  | _ => none

/-- Leftmost-first search for `FROM_COPYRIGHT_LINE` over the whole
document (the pattern can only start at a newline). -/
def fromCopyrightLine : Chars → Option Chars
  | [] => none
  | c :: cs =>
    if c = '\n' then
      match fromCopyrightAt (c :: cs) with
      | some cap => some cap
      | none => fromCopyrightLine cs
    else fromCopyrightLine cs

/-- `embedded_file_name` (identical in `src/parse.rs` and
`src/lib.rs`): header capture, numbering-prefix stripping, the `"Name"`
placeholder fallback, and the removal of the first colon. -/
def embedded_file_name (contents : Chars) : Except ParseErr Chars :=
  match headerCapture contents with
  | none => .error .NotAHeader
  | some cap =>
    let fn := stripThings (trimBoth cap)
    let fn := if fn = lc "Name" then (fromCopyrightLine contents).getD fn else fn
    .ok (removeFirstColon fn)

/-- `name_copyright_body` from `src/parse.rs` (the Segmenter used by
`obsidianize.rs`): title, filtered prologue, and remainder.  With no
newline in the document it returns immediately with empty prologue and
body; otherwise the prologue candidate region runs from the first
newline to the first `SUBHEAD` match (or to the end), is filtered
line-by-line by `keepNCB`, and must keep at least one line. -/
def name_copyright_body (contents : Chars) : Except ParseErr (Chars × Chars × Chars) :=
  match embedded_file_name contents with
  | .error e => .error e
  | .ok file_name =>
    match firstNL contents with
    | none => .ok (file_name, [], [])
    | some i =>
      let c2 := contents.drop i
      let rstart := (findSubhead c2).getD c2.length
      let kept := (rustLines (c2.take rstart)).filter keepNCB
      if kept = [] then .error .NoLicenseLine
      else .ok (file_name, (kept.map (fun l => l ++ ['\n'])).flatten, c2.drop rstart)

/-- The prologue candidate region of `name_copyright_body`, as a list
of lines. -/
def prologueLines (contents : Chars) : List Chars :=
  match firstNL contents with
  | none => []
  | some i =>
    let c2 := contents.drop i
    rustLines (c2.take ((findSubhead c2).getD c2.length))

/-- `subdivide` from `src/lib.rs` (the Segmenter used by `main.rs`).
When a subordinate header exists the region between the first newline
and the subhead is filtered by `keepSub` and must be non-empty; when
none exists the whole remainder after the first line becomes the
prologue unfiltered and the body is empty. -/
def subdivide (contents : Chars) : Except ParseErr (Chars × Chars × Chars) :=
  match embedded_file_name contents with
  | .error e => .error e
  | .ok file_name =>
    match firstNL contents with
    | none => .ok (file_name, [], [])
    | some i =>
      let proem0 := contents.drop i
      match findSubhead proem0 with
      | some s =>
        let pro_start := if s = 0 then 0 else 1
        let proem := (proem0.take s).drop pro_start
        let kept := (rustLines proem).filter keepSub
        if kept = [] then .error .NoLicenseLine
        else .ok (file_name, (kept.map (fun l => l ++ ['\n'])).flatten, proem0.drop s)
      | none => .ok (file_name, proem0.drop 1, [])

/-- The state of `parse` in `src/lib.rs`: output fragments and the
current anchor (`ParseParts`), plus the accumulated text of the current
run, standing for the source's `contents[start..end]` slice. -/
structure LibParts where
  name : Chars
  parts : List Chars
  link : Chars

/-- `ParseParts::push_with_paragraph`. -/
def libPushPara (p : LibParts) (text : Chars) : LibParts :=
  { p with parts := p.parts ++ [lc "\n\n", text, lc "\n\n"] }

/-- The scanning loop of `parse` in `src/lib.rs`.  On a kind change the
previous run's text is pushed verbatim, a pending list run is closed by
pushing the anchor label (no table is built in this copy), a `ListItem`
run opens with the dice code, and a `Header` run sets the anchor from
its first line only.  The `[]` case is the loop epilogue. -/
def libLines : LibParts → Chars → LineKind → List Chars → LibParts
  | p, run, prev, [] =>
    let p := { p with parts := p.parts ++ [run] }
    if prev = .ListItem then libPushPara p p.link else p
  | p, run, prev, l :: ls =>
    if classify l = prev then libLines p (run ++ '\n' :: l) prev ls
    else
      let p := { p with parts := p.parts ++ [run] }
      let p := if prev = .ListItem then libPushPara p p.link else p
      let p :=
        match classify l with
        | .ListItem => libPushPara p (dice_code p.name p.link)
        | .Header => { p with link := make_link ('\n' :: l) }
        | .Vanilla => p
      libLines p ('\n' :: l) (classify l) ls

/-- `parse` from `src/lib.rs` (the copy exported by the library and
invoked from `main.rs`), renamed `libParse` to avoid the clash with the
`src/parse.rs` copy.  Its lexer likewise cannot fail on newline-led
input. -/
def libParse (name contents : Chars) : Except ParseErr Chars :=
  match contents with
  | [] => .ok []
  | c :: rest =>
    if c = '\n' then
      let p := libLines { name := name, parts := [], link := startLink } [] .Vanilla (splitNL rest)
      .ok (collapseNL p.parts.flatten)
    else .error .MustStartWithNewline

/-- Is the character just before a position a word character: the last
character of the prefix `a`, or the ambient flag when the prefix is
empty (used to state where `\b` holds in a scan). -/
def lastIsWord (prevW : Bool) (a : Chars) : Bool :=
  match a.getLast? with
  | none => prevW
  | some c => isWordCh c

theorem splitNL_ne_nil (s : Chars) : splitNL s ≠ [] := by
  induction s with
  | nil => simp [splitNL]
  | cons c cs ih =>
    simp only [splitNL]
    split
    · simp
    · split <;> simp

theorem tokens_flatten (s : Chars) :
    ((splitNL s).map (fun l => '\n' :: l)).flatten = '\n' :: s := by
  induction s with
  | nil => simp [splitNL]
  | cons c cs ih =>
    simp only [splitNL]
    by_cases hc : c = '\n'
    · subst hc
      simpa using ih
    · rw [if_neg hc]
      rcases hsp : splitNL cs with _ | ⟨l, ls⟩
      · exact absurd hsp (splitNL_ne_nil cs)
      · rw [hsp] at ih
        simp only [List.map_cons, List.flatten_cons] at ih ⊢
        injection ih with h1 h2
        simp only [List.cons_append]
        exact congrArg (fun x => '\n' :: c :: x) h2

theorem runsOf_flatten (ls : List Chars) :
    ((runsOf ls).map Prod.snd).flatten = ls := by
  induction ls with
  | nil => simp [runsOf]
  | cons l ls ih =>
    simp only [runsOf]
    rcases hr : runsOf ls with _ | ⟨⟨k, r⟩, rest⟩
    · simp [hr] at ih
      simp [ih]
    · rw [hr] at ih
      by_cases hk : classify l = k
      · simp only [if_pos hk]
        simp only [List.map_cons, List.flatten_cons] at ih ⊢
        simp [ih]
      · simp only [if_neg hk]
        simp only [List.map_cons, List.flatten_cons] at ih ⊢
        simp [ih]

theorem runsOf_wf (ls : List Chars) :
    ∀ p ∈ runsOf ls, p.2 ≠ [] ∧ ∀ l ∈ p.2, classify l = p.1 := by
  induction ls with
  | nil => simp [runsOf]
  | cons l ls ih =>
    simp only [runsOf]
    rcases hr : runsOf ls with _ | ⟨⟨k, r⟩, rest⟩
    · intro p hp
      simp at hp
      subst hp
      simp
    · rw [hr] at ih
      by_cases hk : classify l = k
      · simp only [if_pos hk]
        intro p hp
        rcases List.mem_cons.mp hp with h | h
        · subst h
          refine ⟨by simp, ?_⟩
          intro x hx
          rcases List.mem_cons.mp hx with h | h
          · subst h; exact hk
          · exact (ih (k, r) (by simp)).2 x h
        · exact ih _ (List.mem_cons_of_mem _ h)
      · simp only [if_neg hk]
        intro p hp
        rcases List.mem_cons.mp hp with h | h
        · subst h
          exact ⟨by simp, by intro x hx; simp at hx; subst hx; rfl⟩
        · exact ih _ h

theorem runsOf_chain (ls : List Chars) :
    List.Chain' (fun a b => a.1 ≠ b.1) (runsOf ls) := by
  induction ls with
  | nil => simp [runsOf]
  | cons l ls ih =>
    simp only [runsOf]
    rcases hr : runsOf ls with _ | ⟨⟨k, r⟩, rest⟩
    · simp
    · rw [hr] at ih
      by_cases hk : classify l = k
      · simp only [if_pos hk]
        cases rest with
        | nil => simp
        | cons b rest2 =>
          rw [List.chain'_cons] at ih ⊢
          exact ⟨ih.1, ih.2⟩
      · simp only [if_neg hk]
        exact List.Chain'.cons hk ih

theorem runsOf_mem_lines (ls : List Chars) :
    ∀ p ∈ runsOf ls, ∀ l ∈ p.2, l ∈ ls := by
  induction ls with
  | nil => simp [runsOf]
  | cons l ls ih =>
    simp only [runsOf]
    rcases hr : runsOf ls with _ | ⟨⟨k, r⟩, rest⟩
    · intro p hp
      simp at hp
      subst hp
      simp
    · rw [hr] at ih
      by_cases hk : classify l = k
      · simp only [if_pos hk]
        intro p hp x hx
        rcases List.mem_cons.mp hp with h | h
        · subst h
          rcases List.mem_cons.mp hx with h | h
          · simp [h]
          · exact List.mem_cons_of_mem _ (ih (k, r) (by simp) x h)
        · exact List.mem_cons_of_mem _ (ih _ (List.mem_cons_of_mem _ h) x hx)
      · simp only [if_neg hk]
        intro p hp x hx
        rcases List.mem_cons.mp hp with h | h
        · subst h
          simp at hx
          simp [hx]
        · exact List.mem_cons_of_mem _ (ih _ h x hx)

theorem linkAfterLines_append (link : Chars) (a b : List Chars) :
    linkAfterLines link (a ++ b) = linkAfterLines (linkAfterLines link a) b := by
  simp [linkAfterLines, List.foldl_append]

theorem linkAfterLines_nonHeader (link : Chars) (r : List Chars)
    (h : ∀ l ∈ r, classify l ≠ .Header) : linkAfterLines link r = link := by
  induction r generalizing link with
  | nil => simp [linkAfterLines]
  | cons l r ih =>
    have h1 : classify l ≠ .Header := h l (by simp)
    simp only [linkAfterLines, List.foldl_cons] at ih ⊢
    rw [stepLink, if_neg h1]
    exact ih link (fun x hx => h x (List.mem_cons_of_mem _ hx))

theorem classify_listItem_capture (l : Chars) (h : classify l = .ListItem) :
    (itemCapture ('\n' :: l)).isSome = true := by
  rw [classify] at h
  by_cases hh : isHeaderLine l = true
  · simp [hh] at h
  · by_cases hl : isListItemLine l = true
    · rw [isListItemLine] at hl
      simp only [Bool.and_eq_true, Bool.not_eq_true'] at hl
      rw [itemCapture]
      simp only [hl.1]
      rcases hd : (l.drop (l.takeWhile Char.isDigit).length) with _ | ⟨c, rest⟩
      · rw [hd] at hl
        simp at hl
      · rw [hd] at hl
        simp at hl
        rw [hl.2]
        simp
    · simp [hh, hl] at h

theorem classify_vanilla_of_not (l : Chars) (hh : isHeaderLine l ≠ true)
    (hl : isListItemLine l ≠ true) : classify l = .Vanilla := by
  simp [classify, hh, hl]

theorem tableRowsAux_ok (items : List Chars) :
    ∀ i, (∀ t ∈ items, (itemCapture t).isSome = true) →
      tableRowsAux i items = .ok (dataRowsF i items) := by
  induction items with
  | nil => intro i h; simp [tableRowsAux, dataRowsF]
  | cons t rest ih =>
    intro i h
    have ht : (itemCapture t).isSome = true := h t (by simp)
    rcases hc : itemCapture t with _ | cap
    · rw [hc] at ht; simp at ht
    · rw [tableRowsAux, hc]
      rw [ih (i + 1) (fun x hx => h x (List.mem_cons_of_mem _ hx))]
      simp [dataRowsF, itemText, hc]

theorem list_to_table_ok (items : List Chars) (h1 : items ≠ [])
    (h2 : ∀ t ∈ items, (itemCapture t).isSome = true) :
    list_to_table items = .ok (tableF items) := by
  rw [list_to_table, if_neg (by simpa using h1)]
  rw [tableRowsAux_ok items 1 h2]
  rfl

theorem dataRowsF_length (items : List Chars) :
    ∀ i, (dataRowsF i items).length = items.length := by
  induction items with
  | nil => intro i; simp [dataRowsF]
  | cons t rest ih => intro i; simp [dataRowsF, ih]

theorem dataRowsF_getD (items : List Chars) :
    ∀ k i, i < items.length →
      (dataRowsF k items).getD i [] =
        lc "\n| " ++ lc (Nat.repr (k + i)) ++ lc " | " ++ itemText (items.getD i []) ++ lc " |" := by
  induction items with
  | nil => intro k i h; simp at h
  | cons t rest ih =>
    intro k i h
    cases i with
    | zero => simp [dataRowsF]
    | succ j =>
      have hj : j < rest.length := by simpa using h
      simp only [dataRowsF, List.getD_cons_succ]
      rw [ih (k + 1) j hj]
      have : k + 1 + j = k + (j + 1) := by omega
      rw [this]

theorem parseLines_sameRun (r : List Chars) :
    ∀ (ch : ParsedChapter) (k : LineKind) (rest : List Chars),
      (∀ l ∈ r, classify l = k) →
      parseLines ch k (r ++ rest) =
        parseLines (r.foldl (fun c l => push_line c k ('\n' :: l)) ch) k rest := by
  induction r with
  | nil => intro ch k rest h; simp
  | cons l r ih =>
    intro ch k rest h
    have hl : classify l = k := h l (by simp)
    simp only [List.cons_append, List.foldl_cons, parseLines, hl, if_pos rfl]
    exact ih _ k rest (fun x hx => h x (List.mem_cons_of_mem _ hx))

theorem pushRun_vanilla (r : List Chars) :
    ∀ ch : ParsedChapter,
      r.foldl (fun c l => push_line c .Vanilla ('\n' :: l)) ch =
        { ch with parsed := ch.parsed ++ r.map (fun l => '\n' :: l) } := by
  induction r with
  | nil => intro ch; simp
  | cons l r ih =>
    intro ch
    simp only [List.foldl_cons, List.map_cons]
    rw [ih]
    simp [push_line]

theorem pushRun_header (r : List Chars) :
    ∀ ch : ParsedChapter, (∀ l ∈ r, classify l = .Header) →
      r.foldl (fun c l => push_line c .Header ('\n' :: l)) ch =
        { ch with parsed := ch.parsed ++ r.map (fun l => '\n' :: l),
                  link := linkAfterLines ch.link r } := by
  induction r with
  | nil => intro ch h; simp [linkAfterLines]
  | cons l r ih =>
    intro ch h
    simp only [List.foldl_cons, List.map_cons]
    rw [ih _ (fun x hx => h x (List.mem_cons_of_mem _ hx))]
    simp only [push_line, linkAfterLines, List.foldl_cons]
    rw [stepLink, if_pos (h l (by simp))]
    simp

theorem pushRun_listItem (r : List Chars) :
    ∀ ch : ParsedChapter,
      r.foldl (fun c l => push_line c .ListItem ('\n' :: l)) ch =
        { ch with list := ch.list ++ r.map (fun l => '\n' :: l) } := by
  induction r with
  | nil => intro ch; simp
  | cons l r ih =>
    intro ch
    simp only [List.foldl_cons, List.map_cons]
    rw [ih]
    simp [push_line]

theorem change_kind_open_list (ch : ParsedChapter) (old : LineKind) :
    change_kind ch old .ListItem = .ok (push_as_paragraph ch (dice_code ch.name ch.link)) := by
  simp [change_kind]

theorem change_kind_close (ch : ParsedChapter) (old k : LineKind) (hk : k ≠ .ListItem)
    (h4 : old = .ListItem → ch.list ≠ [] ∧ ∀ t ∈ ch.list, (itemCapture t).isSome = true)
    (h5 : old ≠ .ListItem → ch.list = []) :
    change_kind ch old k =
      .ok { ch with parsed := ch.parsed ++ closeFrags ch old, list := [] } := by
  rw [change_kind, if_neg hk]
  by_cases ho : old = .ListItem
  · rw [if_pos ho, closeFrags, if_pos ho]
    rw [list_to_table_ok ch.list (h4 ho).1 (h4 ho).2]
    simp [push_as_paragraph]
  · rw [if_neg ho, closeFrags, if_neg ho]
    have := h5 ho
    cases ch
    simp_all

theorem pushRun_nonList (k : LineKind) (hk : k ≠ .ListItem) (r : List Chars)
    (ch : ParsedChapter) (hcl : ∀ l ∈ r, classify l = k) :
    r.foldl (fun c l => push_line c k ('\n' :: l)) ch =
      { ch with parsed := ch.parsed ++ r.map (fun l => '\n' :: l),
                link := linkAfterLines ch.link r } := by
  cases k with
  | ListItem => exact absurd rfl hk
  | Header => exact pushRun_header r ch hcl
  | Vanilla =>
    rw [pushRun_vanilla r ch]
    rw [linkAfterLines_nonHeader ch.link r (fun l hl => by rw [hcl l hl]; decide)]

theorem renderRuns_cons_nonList (name link : Chars) (k : LineKind) (r : List Chars)
    (rest : List (LineKind × List Chars)) (hk : k ≠ .ListItem)
    (hcl : ∀ l ∈ r, classify l = k) :
    renderRuns name link ((k, r) :: rest) =
      r.map (fun l => '\n' :: l) ++ renderRuns name (linkAfterLines link r) rest := by
  cases k with
  | ListItem => exact absurd rfl hk
  | Header => rfl
  | Vanilla =>
    rw [renderRuns]
    rw [linkAfterLines_nonHeader link r (fun l hl => by rw [hcl l hl]; decide)]

theorem parseLines_runStep (l : Chars) (r2 : List Chars) (ch : ParsedChapter) (k : LineKind)
    (rest : List Chars) (hcl : ∀ x ∈ l :: r2, classify x = k) :
    parseLines (push_line ch k ('\n' :: l)) k (r2 ++ rest) =
      parseLines ((l :: r2).foldl (fun c x => push_line c k ('\n' :: x)) ch) k rest := by
  simp only [List.foldl_cons]
  exact parseLines_sameRun r2 _ k rest (fun x hx => hcl x (List.mem_cons_of_mem _ hx))

theorem parseLines_runs (rs : List (LineKind × List Chars)) :
    ∀ (ch : ParsedChapter) (old : LineKind),
      (∀ p ∈ rs, p.2 ≠ [] ∧ ∀ l ∈ p.2, classify l = p.1) →
      List.Chain' (fun a b => a.1 ≠ b.1) rs →
      (old = .ListItem → ∀ p ∈ rs.head?, p.1 ≠ LineKind.ListItem) →
      (old = .ListItem → ch.list ≠ [] ∧ ∀ t ∈ ch.list, (itemCapture t).isSome = true) →
      (old ≠ .ListItem → ch.list = []) →
      parseLines ch old ((rs.map Prod.snd).flatten) =
        .ok { name := ch.name,
              parsed := ch.parsed ++ closeFrags ch old ++ renderRuns ch.name ch.link rs,
              list := [],
              link := linkAfterLines ch.link ((rs.map Prod.snd).flatten) } := by
  induction rs with
  | nil =>
    intro ch old h1 h2 h3 h4 h5
    simp only [List.map_nil, List.flatten_nil, parseLines, renderRuns, List.append_nil,
      linkAfterLines, List.foldl_nil]
    rw [change_kind_close ch old .Vanilla (by simp) h4 h5]
  | cons p rest ih =>
    intro ch old h1 h2 h3 h4 h5
    obtain ⟨k, r⟩ := p
    obtain ⟨hrne, hrcl⟩ := h1 (k, r) (by simp)
    simp only at hrne hrcl
    have h1' : ∀ p ∈ rest, p.2 ≠ [] ∧ ∀ l ∈ p.2, classify l = p.1 :=
      fun p hp => h1 p (List.mem_cons_of_mem _ hp)
    have h2' : List.Chain' (fun a b => a.1 ≠ b.1) rest := h2.tail
    have hflat : (((k, r) :: rest).map Prod.snd).flatten = r ++ ((rest.map Prod.snd).flatten) := by
      simp
    rw [hflat]
    obtain ⟨l, r2, hr2⟩ := List.exists_cons_of_ne_nil hrne
    by_cases hkl : k = .ListItem
    · -- the run being opened is a list run; the previous run cannot be one
      subst hkl
      have holdNot : old ≠ .ListItem := by
        intro ho
        exact absurd rfl (h3 ho (.ListItem, r) (by simp))
      have hlist := h5 holdNot
      have hcl : classify l = .ListItem := hrcl l (by rw [hr2]; simp)
      have hstep :
          parseLines ch old (r ++ (rest.map Prod.snd).flatten) =
            parseLines
              (r.foldl (fun c x => push_line c .ListItem ('\n' :: x))
                (push_as_paragraph ch (dice_code ch.name ch.link)))
              .ListItem ((rest.map Prod.snd).flatten) := by
        rw [hr2]
        simp only [List.cons_append, parseLines]
        rw [if_neg (by rw [hcl]; exact holdNot)]
        rw [hcl, change_kind_open_list ch old]
        exact parseLines_runStep l r2 _ .ListItem _ (fun x hx => hrcl x (by rw [hr2]; exact hx))
      rw [hstep]
      rw [pushRun_listItem r (push_as_paragraph ch (dice_code ch.name ch.link))]
      have h3'' : (LineKind.ListItem = LineKind.ListItem) →
          ∀ p ∈ rest.head?, p.1 ≠ LineKind.ListItem := by
        intro _
        cases rest with
        | nil => simp
        | cons b rest2 =>
          intro p hp
          simp at hp
          subst hp
          exact Ne.symm (List.chain'_cons.mp h2).1
      have h4'' : (LineKind.ListItem = LineKind.ListItem) →
          ({ push_as_paragraph ch (dice_code ch.name ch.link) with
              list := (push_as_paragraph ch (dice_code ch.name ch.link)).list
                ++ r.map (fun l => '\n' :: l) } : ParsedChapter).list ≠ [] ∧
            ∀ t ∈ ({ push_as_paragraph ch (dice_code ch.name ch.link) with
              list := (push_as_paragraph ch (dice_code ch.name ch.link)).list
                ++ r.map (fun l => '\n' :: l) } : ParsedChapter).list,
              (itemCapture t).isSome = true := by
        intro _
        constructor
        · simp only [push_as_paragraph, hlist]
          rw [hr2]
          simp
        · intro t ht
          simp only [push_as_paragraph, hlist, List.nil_append, List.mem_map] at ht
          obtain ⟨x, hx, hxt⟩ := ht
          subst hxt
          exact classify_listItem_capture x (hrcl x hx)
      rw [ih _ .ListItem h1' h2' h3'' h4'' (fun hcon => absurd rfl hcon)]
      rw [linkAfterLines_append]
      rw [linkAfterLines_nonHeader ch.link r (fun x hx => by rw [hrcl x hx]; decide)]
      simp only [push_as_paragraph, closeFrags, if_neg holdNot, renderRuns, hlist]
      simp [List.append_assoc]
    · -- the run being opened is a header or vanilla run
      have hcl : classify l = k := hrcl l (by rw [hr2]; simp)
      have hstep :
          parseLines ch old (r ++ (rest.map Prod.snd).flatten) =
            parseLines
              (r.foldl (fun c x => push_line c k ('\n' :: x))
                { ch with parsed := ch.parsed ++ closeFrags ch old, list := [] })
              k ((rest.map Prod.snd).flatten) := by
        by_cases hol : old = k
        · have hnol : ¬ old = .ListItem := fun hh => hkl (hol.symm.trans hh)
          have hlist : ch.list = [] := h5 hnol
          have hch : ({ ch with parsed := ch.parsed ++ closeFrags ch old, list := [] }
              : ParsedChapter) = ch := by
            rw [closeFrags, if_neg hnol]
            cases ch
            simp only at hlist
            simp [hlist]
          rw [hch, hol]
          exact parseLines_sameRun r ch k _ hrcl
        · rw [hr2]
          simp only [List.cons_append, parseLines]
          rw [if_neg (by rw [hcl]; exact hol)]
          rw [hcl, change_kind_close ch old k hkl h4 h5]
          exact parseLines_runStep l r2 _ k _ (fun x hx => hrcl x (by rw [hr2]; exact hx))
      rw [hstep]
      rw [pushRun_nonList k hkl r _ hrcl]
      rw [ih _ k h1' h2' (fun hh => absurd hh hkl) (fun hh => absurd hh hkl)
        (fun _ => by simp)]
      rw [renderRuns_cons_nonList ch.name ch.link k r rest hkl hrcl]
      rw [linkAfterLines_append]
      simp only [closeFrags, if_neg hkl]
      simp [List.append_assoc]

theorem parse_renders (name rest : Chars) :
    parse name ('\n' :: rest) =
      .ok (collapseNL (renderRuns name startLink (runsOf (splitNL rest))).flatten) := by
  simp only [parse, if_pos rfl]
  have hsplit : splitNL rest = ((runsOf (splitNL rest)).map Prod.snd).flatten :=
    (runsOf_flatten (splitNL rest)).symm
  have hrun := parseLines_runs (runsOf (splitNL rest)) (ParsedChapter.new name startLink) .Vanilla
    (runsOf_wf (splitNL rest)) (runsOf_chain (splitNL rest))
    (fun h => nomatch h) (fun h => nomatch h) (fun _ => rfl)
  rw [← hsplit] at hrun
  rw [hrun]
  simp [ParsedChapter.new, closeFrags]

theorem renderAt_eq (name : Chars) (rs : List (LineKind × List Chars)) :
    ∀ done : List Chars,
      (∀ p ∈ rs, ∀ l ∈ p.2, classify l = p.1) →
      renderAt name done rs = renderRuns name (anchorBefore done) rs := by
  induction rs with
  | nil => intro done h; rfl
  | cons p rest ih =>
    intro done h
    obtain ⟨k, r⟩ := p
    have hcl : ∀ l ∈ r, classify l = k := h (k, r) (by simp)
    have h' : ∀ p ∈ rest, ∀ l ∈ p.2, classify l = p.1 :=
      fun p hp => h p (List.mem_cons_of_mem _ hp)
    have happ : anchorBefore (done ++ r) = linkAfterLines (anchorBefore done) r := by
      rw [anchorBefore, anchorBefore, linkAfterLines_append]
    cases k with
    | ListItem =>
      simp only [renderAt, renderRuns]
      rw [ih (done ++ r) h']
      rw [happ]
      rw [linkAfterLines_nonHeader _ r (fun x hx => by rw [hcl x hx]; decide)]
    | Header =>
      simp only [renderAt, renderRuns]
      rw [ih (done ++ r) h']
      rw [happ]
    | Vanilla =>
      simp only [renderAt, renderRuns]
      rw [ih (done ++ r) h']
      rw [happ]
      rw [linkAfterLines_nonHeader _ r (fun x hx => by rw [hcl x hx]; decide)]

theorem linkAfterLines_no_header (ls : List Chars) :
    ∀ link : Chars, (ls.filter (fun l => classify l = LineKind.Header)).getLast? = none →
      linkAfterLines link ls = link := by
  intro link hf
  apply linkAfterLines_nonHeader
  intro l hl hcl
  rw [List.getLast?_eq_none_iff] at hf
  have : l ∈ ls.filter (fun l => classify l = LineKind.Header) :=
    List.mem_filter.mpr ⟨hl, by simp [hcl]⟩
  rw [hf] at this
  simp at this

theorem linkAfterLines_last_header (ls : List Chars) :
    ∀ (link hd : Chars),
      (ls.filter (fun l => classify l = LineKind.Header)).getLast? = some hd →
      linkAfterLines link ls = make_link ('\n' :: hd) := by
  induction ls with
  | nil => intro link hd hf; simp at hf
  | cons l ls ih =>
    intro link hd hf
    rw [List.filter_cons] at hf
    simp only [linkAfterLines, List.foldl_cons]
    by_cases hl : classify l = LineKind.Header
    · rw [if_pos (by simp [hl])] at hf
      rcases hrest : ls.filter (fun l => classify l = LineKind.Header) with _ | ⟨x, xs⟩
      · rw [hrest] at hf
        simp at hf
        subst hf
        rw [stepLink, if_pos hl]
        exact linkAfterLines_no_header ls _ (by rw [hrest]; rfl)
      · rw [hrest, List.getLast?_cons_cons] at hf
        exact ih _ hd (by rw [hrest]; exact hf)
    · rw [if_neg (by simp [hl])] at hf
      rw [stepLink, if_neg hl]
      exact ih link hd hf

theorem renderRuns_verbatim (name : Chars) (rs : List (LineKind × List Chars)) :
    ∀ link : Chars, (∀ p ∈ rs, p.1 ≠ LineKind.ListItem) →
      renderRuns name link rs = ((rs.map Prod.snd).flatten).map (fun l => '\n' :: l) := by
  induction rs with
  | nil => intro link h; rfl
  | cons p rest ih =>
    intro link h
    obtain ⟨k, r⟩ := p
    have hk : k ≠ LineKind.ListItem := h (k, r) (by simp)
    have h' : ∀ p ∈ rest, p.1 ≠ LineKind.ListItem :=
      fun p hp => h p (List.mem_cons_of_mem _ hp)
    cases k with
    | ListItem => exact absurd rfl hk
    | Header =>
      simp only [renderRuns]
      rw [ih _ h']
      simp
    | Vanilla =>
      simp only [renderRuns]
      rw [ih _ h']
      simp

theorem runsOf_no_list (rest : Chars) (h : ∀ l ∈ splitNL rest, classify l ≠ LineKind.ListItem) :
    ∀ p ∈ runsOf (splitNL rest), p.1 ≠ LineKind.ListItem := by
  intro p hp hkl
  obtain ⟨hne, hcl⟩ := runsOf_wf _ p hp
  obtain ⟨l, r2, hr⟩ := List.exists_cons_of_ne_nil hne
  have hl : l ∈ p.2 := by rw [hr]; simp
  have hmem := runsOf_mem_lines _ p hp l hl
  exact h l hmem (by rw [hcl l hl, hkl])

theorem parse_verbatim (name rest : Chars)
    (h : ∀ l ∈ splitNL rest, classify l ≠ LineKind.ListItem) :
    parse name ('\n' :: rest) = .ok (collapseNL ('\n' :: rest)) := by
  rw [parse_renders]
  congr 1
  rw [renderRuns_verbatim name _ startLink (runsOf_no_list rest h)]
  rw [runsOf_flatten]
  rw [tokens_flatten]

theorem libLines_verbatim (ls : List Chars) :
    ∀ (p : LibParts) (run : Chars) (prev : LineKind),
      prev ≠ LineKind.ListItem → (∀ l ∈ ls, classify l ≠ LineKind.ListItem) →
      (libLines p run prev ls).parts.flatten =
        p.parts.flatten ++ run ++ (ls.map (fun l => '\n' :: l)).flatten := by
  induction ls with
  | nil =>
    intro p run prev hprev h
    simp only [libLines, if_neg hprev]
    simp
  | cons l ls ih =>
    intro p run prev hprev h
    have hl : classify l ≠ LineKind.ListItem := h l (by simp)
    have h' : ∀ x ∈ ls, classify x ≠ LineKind.ListItem :=
      fun x hx => h x (List.mem_cons_of_mem _ hx)
    simp only [libLines]
    by_cases hk : classify l = prev
    · rw [if_pos hk]
      rw [ih p (run ++ '\n' :: l) prev hprev h']
      simp [List.append_assoc]
    · rw [if_neg hk, if_neg hprev]
      cases hcl : classify l with
      | ListItem => exact absurd hcl hl
      | Header =>
        rw [ih _ _ LineKind.Header (by decide) h']
        simp [List.append_assoc]
      | Vanilla =>
        rw [ih _ _ LineKind.Vanilla (by decide) h']
        simp [List.append_assoc]

theorem libParse_verbatim (name rest : Chars)
    (h : ∀ l ∈ splitNL rest, classify l ≠ LineKind.ListItem) :
    libParse name ('\n' :: rest) = .ok (collapseNL ('\n' :: rest)) := by
  simp only [libParse, if_pos rfl]
  rw [libLines_verbatim (splitNL rest) _ [] .Vanilla (by decide) h]
  simp [tokens_flatten]

theorem firstNL_eq_none (s : Chars) : firstNL s = none ↔ '\n' ∉ s := by
  induction s with
  | nil => simp [firstNL]
  | cons c cs ih =>
    simp only [firstNL]
    by_cases hc : c = '\n'
    · subst hc; simp
    · rw [if_neg hc]
      simp only [Option.map_eq_none', ih, List.mem_cons]
      constructor
      · intro h hm
        rcases hm with hm | hm
        · exact hc hm.symm
        · exact h hm
      · intro h hm
        exact h (Or.inr hm)

theorem embedded_file_name_ok (contents : Chars) (h : (headerCapture contents).isSome = true) :
    ∃ nm, embedded_file_name contents = .ok nm := by
  rcases hc : headerCapture contents with _ | cap
  · rw [hc] at h; simp at h
  · simp only [embedded_file_name, hc]
    exact ⟨_, rfl⟩

theorem isPrefixOf_iff_exists (p : Chars) : ∀ l : Chars,
    p.isPrefixOf l = true ↔ ∃ t, l = p ++ t := by
  induction p with
  | nil => intro l; simp [List.isPrefixOf]
  | cons c p ih =>
    intro l
    cases l with
    | nil => simp [List.isPrefixOf]
    | cons d l =>
      simp only [List.isPrefixOf, Bool.and_eq_true, beq_iff_eq]
      rw [ih l]
      constructor
      · rintro ⟨hcd, t, ht⟩
        exact ⟨t, by simp [hcd, ht]⟩
      · rintro ⟨t, ht⟩
        injection ht with h1 h2
        exact ⟨h1.symm, t, h2⟩

theorem oglAfter_iff (u : Chars) :
    oglAfter u = true ↔ ∃ t, u = lc "OGL" ++ t ∧ headIsWord t = false := by
  rw [oglAfter]
  simp only [Bool.and_eq_true, decide_eq_true_eq, Bool.not_eq_true']
  constructor
  · rintro ⟨h1, h2⟩
    refine ⟨u.drop 3, ?_, h2⟩
    conv_lhs => rw [← List.take_append_drop 3 u]
    rw [h1]
  · rintro ⟨t, hu, ht⟩
    subst hu
    have hshape : lc "OGL" ++ t = 'O' :: 'G' :: 'L' :: t := rfl
    rw [hshape]
    constructor
    · simp only [List.take]
      decide
    · simpa [List.drop] using ht

theorem lastIsWord_cons (p : Bool) (c : Char) (a : Chars) :
    lastIsWord p (c :: a) = lastIsWord (isWordCh c) a := by
  cases a with
  | nil => rfl
  | cons d a =>
    rw [lastIsWord, lastIsWord, List.getLast?_cons_cons]
    cases h : (d :: a).getLast? with
    | none =>
      rw [List.getLast?_eq_none_iff] at h
      simp at h
    | some x => rfl

theorem hasWordOGLAux_iff (s : Chars) :
    ∀ prevW : Bool,
      hasWordOGLAux prevW s = true ↔
        ∃ a t, s = a ++ lc "OGL" ++ t ∧ lastIsWord prevW a = false ∧ headIsWord t = false := by
  induction s with
  | nil =>
    intro prevW
    simp only [hasWordOGLAux]
    constructor
    · intro h; simp at h
    · rintro ⟨a, t, hs, _, _⟩
      have hlen : ([] : Chars).length = (a ++ lc "OGL" ++ t).length := by rw [hs]
      have h3 : (lc "OGL").length = 3 := rfl
      simp only [List.length_append, h3, List.length_nil] at hlen
      omega
  | cons c cs ih =>
    intro prevW
    simp only [hasWordOGLAux, Bool.or_eq_true, Bool.and_eq_true, Bool.not_eq_true']
    constructor
    · rintro (⟨hp, hogl⟩ | hrec)
      · obtain ⟨t, hu, ht⟩ := (oglAfter_iff _).mp hogl
        exact ⟨[], t, by simpa using hu, by simp [lastIsWord, hp], ht⟩
      · obtain ⟨a, t, hs, hla, ht⟩ := (ih (isWordCh c)).mp hrec
        refine ⟨c :: a, t, by simp [hs], ?_, ht⟩
        rw [lastIsWord_cons]
        exact hla
    · rintro ⟨a, t, hs, hla, ht⟩
      cases a with
      | nil =>
        left
        simp only [List.nil_append] at hs
        rw [lastIsWord] at hla
        simp only [List.getLast?_nil] at hla
        refine ⟨by simpa using hla, (oglAfter_iff _).mpr ⟨t, hs, ht⟩⟩
      | cons d a =>
        right
        have hs2 : c :: cs = d :: (a ++ lc "OGL" ++ t) := by simpa using hs
        injection hs2 with h1 h2
        subst h1
        exact (ih (isWordCh c)).mpr ⟨a, t, h2, by rw [lastIsWord_cons] at hla; exact hla, ht⟩

set_option maxRecDepth 20000 in
/-- C1: on the end-to-end scenario — title "A File Name", body
"\n## Random List\n1. Foo\n2. Baz" — the Transformer succeeds and the
output is exactly: the header line, a blank line, the roll-trigger line
referencing `A File Name#^random-list`, a blank line, the table header,
alignment row and two data rows, a blank line, and the anchor label
(with the leading newline before the header and two trailing newlines
after the label).  The second conjunct checks the "no run of more than
two consecutive newlines" part: the output is a fixed point of the
newline normalization. -/
theorem end_to_end_scenario :
    parse (lc "A File Name") (lc "\n## Random List\n1. Foo\n2. Baz") =
      .ok (lc "\n## Random List\n\n`dice: [[A File Name#^random-list]]`\n\n| d2 | Item |\n| --:| -- |\n| 1 | Foo |\n| 2 | Baz |\n\n^random-list\n\n")
    ∧ collapseNL (lc "\n## Random List\n\n`dice: [[A File Name#^random-list]]`\n\n| d2 | Item |\n| --:| -- |\n| 1 | Foo |\n| 2 | Baz |\n\n^random-list\n\n") =
      lc "\n## Random List\n\n`dice: [[A File Name#^random-list]]`\n\n| d2 | Item |\n| --:| -- |\n| 1 | Foo |\n| 2 | Baz |\n\n^random-list\n\n" :=
  ⟨rfl, rfl⟩

/-- C2: for every accepted body `'\n' :: rest` the Transformer output
is the collapse of the per-run rendering `renderRuns`, in which every
maximal `ListItem` run contributes exactly one generated table fragment
immediately followed (as the next paragraph) by exactly one anchor
label fragment — the same shape whether or not further runs follow
(the run list is arbitrary).  The second conjunct pins the table size:
for every `ListItem` run the table is the header row plus exactly one
data row per line of the run. -/
theorem list_run_closure (name rest : Chars) :
    parse name ('\n' :: rest) =
      .ok (collapseNL (renderRuns name startLink (runsOf (splitNL rest))).flatten)
    ∧ ∀ p ∈ runsOf (splitNL rest), p.1 = LineKind.ListItem →
        (dataRowsF 1 (p.2.map (fun l => '\n' :: l))).length = p.2.length
        ∧ tableF (p.2.map (fun l => '\n' :: l)) =
            (headerRow p.2.length :: dataRowsF 1 (p.2.map (fun l => '\n' :: l))).flatten := by
  refine ⟨parse_renders name rest, ?_⟩
  intro p hp hpk
  constructor
  · rw [dataRowsF_length, List.length_map]
  · rw [tableF, List.length_map]

set_option maxRecDepth 20000 in
/-- Witness for C2 at the concrete body "\n1. a\n2. b" (a list run that
ends the document). -/
theorem list_run_closure_witness :
    (dataRowsF 1 ([lc "1. a", lc "2. b"].map (fun l => '\n' :: l))).length =
      ([lc "1. a", lc "2. b"] : List Chars).length
    ∧ tableF ([lc "1. a", lc "2. b"].map (fun l => '\n' :: l)) =
        (headerRow ([lc "1. a", lc "2. b"] : List Chars).length ::
          dataRowsF 1 ([lc "1. a", lc "2. b"].map (fun l => '\n' :: l))).flatten :=
  (list_run_closure (lc "N") (lc "1. a\n2. b")).2 (LineKind.ListItem, [lc "1. a", lc "2. b"])
    (by decide) rfl

/-- C3 counterexample: the body "\n\n\n\n" consists only of `Vanilla`
lines (blank lines classify as `Vanilla`), yet the Transformer does not
return it unchanged: the final normalization collapses the newline run
to two. -/
theorem vanilla_roundtrip_counterexample :
    (∀ l ∈ splitNL (lc "\n\n\n"), classify l = LineKind.Vanilla)
    ∧ parse (lc "A File Name") ('\n' :: lc "\n\n\n") = .ok (lc "\n\n")
    ∧ ('\n' :: lc "\n\n\n") ≠ lc "\n\n" :=
  ⟨by decide, rfl, by decide⟩

/-- C3 (amended): a body consisting only of `Vanilla` lines is returned
unchanged up to the final newline normalization — the output is exactly
`collapseNL` of the input, hence literally unchanged whenever the input
contains no run of three or more consecutive newlines. -/
theorem vanilla_roundtrip_normalized (name rest : Chars)
    (h : ∀ l ∈ splitNL rest, classify l = LineKind.Vanilla) :
    parse name ('\n' :: rest) = .ok (collapseNL ('\n' :: rest)) :=
  parse_verbatim name rest (fun l hl => by rw [h l hl]; decide)

set_option maxRecDepth 20000 in
/-- Witness for the amended C3 on a concrete all-vanilla body. -/
theorem vanilla_roundtrip_normalized_witness :
    parse (lc "A File Name") ('\n' :: lc "How\nnow, brown cow?\n") =
      .ok (collapseNL ('\n' :: lc "How\nnow, brown cow?\n")) :=
  vanilla_roundtrip_normalized (lc "A File Name") (lc "How\nnow, brown cow?\n") (by decide)

/-- C4: for every accepted body, the Transformer output equals the
collapse of `renderAt`, in which each `ListItem` run's roll-trigger
marker (and its closing anchor label) uses `anchorBefore` of the lines
preceding the run — a fold that starts at the `^START` sentinel and is
updated only by `Header` lines (see `stepLink`: list and vanilla lines
never change it).  The second conjunct makes the "most recent header"
reading explicit: `anchorBefore` is `^START` when no header line
precedes, and the slug of the last preceding header line otherwise. -/
theorem roll_trigger_anchor (name rest : Chars) :
    (parse name ('\n' :: rest) =
      .ok (collapseNL (renderAt name [] (runsOf (splitNL rest))).flatten))
    ∧ ∀ ls : List Chars,
        ((ls.filter (fun l => classify l = LineKind.Header)).getLast? = none →
          anchorBefore ls = startLink)
        ∧ ∀ hd : Chars,
            (ls.filter (fun l => classify l = LineKind.Header)).getLast? = some hd →
            anchorBefore ls = make_link ('\n' :: hd) := by
  constructor
  · rw [parse_renders]
    rw [renderAt_eq name _ [] (fun p hp => (runsOf_wf _ p hp).2)]
    rfl
  · intro ls
    exact ⟨fun h => linkAfterLines_no_header ls startLink h,
      fun hd h => linkAfterLines_last_header ls startLink hd h⟩

set_option maxRecDepth 20000 in
/-- Witness for C4: the anchor in force after a header line followed by
a list line is the slug of that header line. -/
theorem roll_trigger_anchor_witness :
    anchorBefore [lc "## Random List", lc "1. Foo"] = make_link ('\n' :: lc "## Random List") :=
  ((roll_trigger_anchor (lc "N") (lc "x")).2 [lc "## Random List", lc "1. Foo"]).2
    (lc "## Random List") (by decide)

/-- C5: on any non-empty sequence of list-item tokens, `list_to_table`
succeeds with the `| dN | Item |` header plus alignment row for N equal
to the number of items, followed by exactly one data row per item; the
row at 0-based position i carries the number i+1 (the 1-based output
position, independent of the digits of the original marker) and the
item's text after the leading digits-and-dot marker, trimmed
(`itemText`). -/
theorem list_to_table_spec (items : List Chars) (h1 : items ≠ [])
    (h2 : ∀ t ∈ items, (itemCapture t).isSome = true) :
    list_to_table items = .ok ((headerRow items.length :: dataRowsF 1 items).flatten)
    ∧ (dataRowsF 1 items).length = items.length
    ∧ ∀ i, i < items.length →
        (dataRowsF 1 items).getD i [] =
          lc "\n| " ++ lc (Nat.repr (i + 1)) ++ lc " | " ++ itemText (items.getD i []) ++ lc " |" := by
  refine ⟨?_, dataRowsF_length items 1, ?_⟩
  · rw [list_to_table_ok items h1 h2]
    rfl
  · intro i hi
    rw [dataRowsF_getD items 1 i hi, Nat.add_comm]

set_option maxRecDepth 20000 in
/-- Witness for C5 on the two-item run of the repository's own test
(items "\n1. Foo", "\n2. Baz", whose markers are renumbered 1, 2). -/
theorem list_to_table_spec_witness :
    list_to_table [lc "\n1. Foo", lc "\n2. Baz"] =
      .ok ((headerRow ([lc "\n1. Foo", lc "\n2. Baz"] : List Chars).length ::
        dataRowsF 1 [lc "\n1. Foo", lc "\n2. Baz"]).flatten) :=
  (list_to_table_spec [lc "\n1. Foo", lc "\n2. Baz"] (by decide) (by decide)).1

/-- C9: the Transformer fails exactly on non-empty input whose first
character is not a newline, and then with `MustStartWithNewline`; it
succeeds on every other input — empty input yields empty output, and on
newline-led input the `EmptyListRun`, not-a-list-item and lexer error
branches are unreachable (the success is witnessed by `parse_renders`'s
total rendering). -/
theorem parse_error_characterization (name contents : Chars) :
    (parse name contents = .error ParseErr.MustStartWithNewline ↔
      contents ≠ [] ∧ contents.head? ≠ some '\n')
    ∧ ((∃ out, parse name contents = .ok out) ↔
      (contents = [] ∨ contents.head? = some '\n'))
    ∧ parse name [] = .ok [] := by
  cases contents with
  | nil =>
    refine ⟨?_, ?_, rfl⟩
    · simp [parse]
    · simp [parse]
  | cons c rest =>
    by_cases hc : c = '\n'
    · subst hc
      rw [parse_renders name rest]
      refine ⟨?_, ?_, rfl⟩
      · simp
      · simp
    · have hp : parse name (c :: rest) = .error ParseErr.MustStartWithNewline := by
        simp [parse, hc]
      rw [hp]
      refine ⟨?_, ?_, rfl⟩
      · simp [hc]
      · simp [hc]

set_option maxRecDepth 20000 in
/-- C10 counterexample: on name "N" and contents "\n1. Foo" the two
Transformer copies return different texts — the `src/parse.rs` copy
renders the list run as a table, the `src/lib.rs` copy (used by
`main.rs`) emits the items verbatim. -/
theorem parse_impls_differ :
    parse (lc "N") (lc "\n1. Foo") =
      .ok (lc "\n\n`dice: [[N#^START]]`\n\n| d1 | Item |\n| --:| -- |\n| 1 | Foo |\n\n^START\n\n")
    ∧ libParse (lc "N") (lc "\n1. Foo") =
      .ok (lc "\n\n`dice: [[N#^START]]`\n\n1. Foo\n\n^START\n\n")
    ∧ (lc "\n\n`dice: [[N#^START]]`\n\n| d1 | Item |\n| --:| -- |\n| 1 | Foo |\n\n^START\n\n" : Chars)
        ≠ lc "\n\n`dice: [[N#^START]]`\n\n1. Foo\n\n^START\n\n" :=
  ⟨rfl, rfl, by decide⟩

/-- C10 (amended): the two Transformer copies fail on exactly the same
inputs (both succeed iff the input is empty or newline-led) and agree
on every body containing no list-item line; on list runs they differ as
shown in the counterexample (table vs verbatim items, and the anchor of
a multi-line header run is taken from its last line in `src/parse.rs`
but from its first line in `src/lib.rs`). -/
theorem parse_impls_agreement (name contents rest : Chars) :
    ((∃ out, parse name contents = .ok out) ↔ (∃ out, libParse name contents = .ok out))
    ∧ ((∀ l ∈ splitNL rest, classify l ≠ LineKind.ListItem) →
        parse name ('\n' :: rest) = libParse name ('\n' :: rest)) := by
  constructor
  · cases contents with
    | nil => simp [parse, libParse]
    | cons c rest2 =>
      by_cases hc : c = '\n'
      · subst hc
        rw [parse_renders name rest2]
        simp [libParse]
      · simp [parse, libParse, hc]
  · intro h
    rw [parse_verbatim name rest h, libParse_verbatim name rest h]

set_option maxRecDepth 20000 in
/-- Witness for the amended C10 on a list-free body. -/
theorem parse_impls_agreement_witness :
    parse (lc "N") ('\n' :: lc "a\nb") = libParse (lc "N") ('\n' :: lc "a\nb") :=
  (parse_impls_agreement (lc "N") [] (lc "a\nb")).2 (by decide)

/-- C6 counterexample: the document "# H" has a valid Markdown header
first line and zero qualifying lines in its (empty) prologue candidate
region, yet `name_copyright_body` accepts it with empty prologue and
body instead of rejecting it. -/
theorem no_license_counterexample :
    name_copyright_body (lc "# H") = .ok (lc "H", [], [])
    ∧ prologueLines (lc "# H") = [] :=
  ⟨rfl, rfl⟩

/-- C7 (code bug): `embedded_file_name` removes only the first colon —
`COLON.replace` replaces a single leftmost match — so the header
"# a:b:c" yields the title "ab:c", not the "abc" required by the spec's
"strip all colons anywhere" and by the repository's own test name
`embedded_file_name_removes_colon_everywhere`. -/
theorem colon_removed_once_only :
    embedded_file_name (lc "# a:b:c") = .ok (lc "ab:c")
    ∧ (lc "ab:c" : Chars) ≠ lc "abc" :=
  ⟨rfl, by decide⟩

/-- C8 counterexample: `name_copyright_body` keeps the line "x OGL y" —
whole word OGL in mid-line position, no copyright glyph — as a license
line of the prologue, which the claim says is excluded. -/
theorem ogl_midline_kept_counterexample :
    name_copyright_body (lc "# H\nx OGL y\n## S") =
      .ok (lc "H", lc "x OGL y\n", lc "\n## S")
    ∧ keepNCB (lc "x OGL y") = true
    ∧ (lc "x OGL y").contains '©' = false :=
  ⟨rfl, rfl, rfl⟩

/-- C6 (amended): for every document whose first line is a valid
Markdown header, `name_copyright_body` fails with `NoLicenseLine` iff
the document contains a newline AND no line of the prologue candidate
region (the lines between the first newline and the first subordinate
header, or all remaining lines when no subordinate header exists)
qualifies under `keepNCB`.  In particular, documents with no newline at
all are accepted unconditionally — the original claim fails on those,
see the counterexample. -/
theorem no_license_iff (contents : Chars) (h : (headerCapture contents).isSome = true) :
    name_copyright_body contents = .error ParseErr.NoLicenseLine ↔
      ('\n' ∈ contents ∧ ∀ l ∈ prologueLines contents, keepNCB l = false) := by
  obtain ⟨nm, hnm⟩ := embedded_file_name_ok contents h
  rw [name_copyright_body, prologueLines, hnm]
  rcases hfn : firstNL contents with _ | i
  · have hnin : '\n' ∉ contents := (firstNL_eq_none contents).mp hfn
    simp [hnin]
  · have hin : '\n' ∈ contents := by
      by_contra hnot
      rw [← firstNL_eq_none] at hnot
      rw [hfn] at hnot
      exact absurd hnot (by simp)
    simp only []
    by_cases hk :
        ((rustLines ((contents.drop i).take
          ((findSubhead (contents.drop i)).getD (contents.drop i).length))).filter keepNCB) = []
    · rw [if_pos hk]
      simp only [true_and, hin]
      constructor
      · intro _ l hl
        have := List.filter_eq_nil_iff.mp hk l hl
        simpa using this
      · intro _
        trivial
    · rw [if_neg hk]
      constructor
      · intro hcon
        exact absurd hcon (by simp)
      · rintro ⟨_, hall⟩
        exfalso
        apply hk
        apply List.filter_eq_nil_iff.mpr
        intro a ha
        simp [hall a ha]

set_option maxRecDepth 20000 in
/-- Witness for the amended C6 on a concrete headed document whose
body has no license line. -/
theorem no_license_iff_witness :
    name_copyright_body (lc "# H\nxyz") = .error ParseErr.NoLicenseLine ↔
      ('\n' ∈ lc "# H\nxyz" ∧ ∀ l ∈ prologueLines (lc "# H\nxyz"), keepNCB l = false) :=
  no_license_iff (lc "# H\nxyz") (by decide)

/-- C8 (amended): the two Segmenter copies use different license-line
predicates.  `keepSub` (`subdivide` in src/lib.rs) keeps a line exactly
as the claim states: the copyright glyph anywhere, or the whole word
"OGL" or "Include OGL" at line start.  `keepNCB` (`name_copyright_body`
in src/parse.rs) keeps a line iff it has the glyph anywhere or the
whole word "OGL" ANYWHERE in the line (word-bounded on both sides), so
a mid-line OGL also qualifies there — see the counterexample. -/
theorem license_line_predicates (l : Chars) :
    (keepSub l = true ↔
      ('©' ∈ l
        ∨ (∃ t, l = lc "OGL" ++ t ∧ headIsWord t = false)
        ∨ (∃ t, l = lc "Include OGL" ++ t ∧ headIsWord t = false)))
    ∧ (keepNCB l = true ↔
      ('©' ∈ l
        ∨ ∃ a t, l = a ++ lc "OGL" ++ t ∧ lastIsWord false a = false ∧ headIsWord t = false)) := by
  have hcont : (l.contains '©' = true) ↔ '©' ∈ l := by
    simp [List.contains]
  constructor
  · rw [keepSub]
    simp only [Bool.or_eq_true, subOGL, Bool.and_eq_true]
    rw [hcont]
    constructor
    · rintro (hc | ⟨hpre, hafter⟩ | hogl)
      · exact Or.inl hc
      · right; right
        obtain ⟨u, hu⟩ := (isPrefixOf_iff_exists (lc "Include ") l).mp hpre
        rw [hu, show (8 : Nat) = (lc "Include ").length from rfl, List.drop_left] at hafter
        obtain ⟨t, hut, ht⟩ := (oglAfter_iff u).mp hafter
        refine ⟨t, ?_, ht⟩
        rw [hu, hut, ← List.append_assoc]
        rfl
      · right; left
        obtain ⟨t, hut, ht⟩ := (oglAfter_iff l).mp hogl
        exact ⟨t, hut, ht⟩
    · rintro (hc | ⟨t, hut, ht⟩ | ⟨t, hut, ht⟩)
      · exact Or.inl hc
      · exact Or.inr (Or.inr ((oglAfter_iff l).mpr ⟨t, hut, ht⟩))
      · right; left
        have hsplit : l = lc "Include " ++ (lc "OGL" ++ t) := by
          rw [hut, ← List.append_assoc]
          rfl
        constructor
        · exact (isPrefixOf_iff_exists (lc "Include ") l).mpr ⟨lc "OGL" ++ t, hsplit⟩
        · rw [hsplit, show (8 : Nat) = (lc "Include ").length from rfl, List.drop_left]
          exact (oglAfter_iff _).mpr ⟨t, rfl, ht⟩
  · rw [keepNCB]
    simp only [Bool.or_eq_true]
    rw [hcont, hasWordOGL, hasWordOGLAux_iff l false]
